import Mathlib

/-!
Verification of the Exo-MAFT core pipeline: spectrum merging
(`exomaft/data/maft_combine.py`), fixed-width line-catalog loading
(`exomaft/maft_feature_tracking.py`, `exomaft/maft_cross_correlation.py`),
feature clustering, and cross-correlation scoring.

Numeric columns of the pandas/numpy code are modelled over `ℚ` where the
computations are field arithmetic and comparisons, and over `ℝ` for the
z-score normalisation (which takes a square root).  `pandas` missing values
(`NaN` from `df.get(..., np.nan)`) are modelled by `Option`.
-/

namespace ExoMaft

/-! ### Generic list utilities mirroring the numpy/pandas primitives used -/

/-- The function `npMin l` models `numpy.ndarray.min` on a nonempty array (`l.min()`);
the value on `[]` is irrelevant junk (numpy raises there, which is modelled
at the call sites that can receive an empty array). -/
def npMin {α : Type} [LinearOrder α] [Inhabited α] (l : List α) : α :=
  l.foldl min (l.headD default)

/-- The function `npMax l` models `numpy.ndarray.max` on a nonempty array. -/
def npMax {α : Type} [LinearOrder α] [Inhabited α] (l : List α) : α :=
  l.foldl max (l.headD default)

/-- Model of `pandas.Series.median`: middle element of the sorted values for odd
length, average of the two middle elements for even length. -/
def median (l : List ℚ) : ℚ :=
  let s := l.insertionSort (· ≤ ·)
  if l.length % 2 = 1 then s.getD (l.length / 2) 0
  else (s.getD (l.length / 2 - 1) 0 + s.getD (l.length / 2) 0) / 2

/-- Auxiliary for `dedupKeys`: drop every element whose key already occurred,
either in `seen` or earlier in the list. -/
def dedupKeysAux {α κ : Type} [DecidableEq κ] (key : α → κ) :
    List κ → List α → List α
  | _, [] => []
  | seen, x :: xs =>
    if key x ∈ seen then dedupKeysAux key seen xs
    else x :: dedupKeysAux key (key x :: seen) xs

/-- Model of `pandas.DataFrame.drop_duplicates(subset=key, keep='first')`: keep, in
order, the first row bearing each key value. -/
def dedupKeys {α κ : Type} [DecidableEq κ] (key : α → κ) (l : List α) : List α :=
  dedupKeysAux key [] l

/-! ### Data model of `maft_combine.py` (sections 2–4 of the script)

The four input tables, already parsed from whitespace-delimited text into
rational columns (`pd.read_csv` with the per-file column names). -/

/-- A row of the NIRISS SOSS table: `['wavelength','wavelength_err','depth_ppm','depth_err_ppm']`. -/
structure NirissRaw where
  wavelength : ℚ
  wavelength_err : ℚ
  depth_ppm : ℚ
  depth_err_ppm : ℚ
deriving DecidableEq

/-- A row of the combined-model table: `['wavelength','depth']` (no error columns). -/
structure CombRaw where
  wavelength : ℚ
  depth : ℚ
deriving DecidableEq

/-- A row of the archival HST/Spitzer table:
`['wavelength','wavelength_err','depth','depth_err','ntransits']`. -/
structure ArchRaw where
  wavelength : ℚ
  wavelength_err : ℚ
  depth : ℚ
  depth_err : ℚ
  ntransits : ℚ
deriving DecidableEq

/-- A row of the NIRSpec PRISM table: `['wavelength','depth','depth_err']`. -/
structure PrismRaw where
  wavelength : ℚ
  depth : ℚ
  depth_err : ℚ
deriving DecidableEq

/-- A row of a standardised spectrum dataframe after section 2 of
`maft_combine.py`: every one of the four dataframes ends up with these four
numeric columns (each of them is explicitly assigned in the script). -/
structure SRow where
  wavelength : ℚ
  wavelength_err : ℚ
  depth : ℚ
  depth_err : ℚ
deriving DecidableEq

/-- Section 2.1: `df_niriss['depth'] = depth_ppm / 1e6`,
`df_niriss['depth_err'] = depth_err_ppm / 1e6`. -/
def loadNiriss (l : List NirissRaw) : List SRow :=
  l.map (fun r => ⟨r.wavelength, r.wavelength_err, r.depth_ppm / 1000000, r.depth_err_ppm / 1000000⟩)

/-- Section 2.2: `df_comb['wavelength_err'] = 0.0`, `df_comb['depth_err'] = 0.0`. -/
def loadComb (l : List CombRaw) : List SRow :=
  l.map (fun r => ⟨r.wavelength, 0, r.depth, 0⟩)

/-- Section 2.3: keep the four canonical columns, dropping `ntransits`. -/
def loadArch (l : List ArchRaw) : List SRow :=
  l.map (fun r => ⟨r.wavelength, r.wavelength_err, r.depth, r.depth_err⟩)

/-- Section 2.4: `df_prism['wavelength_err'] = 0.0`. -/
def loadPrism (l : List PrismRaw) : List SRow :=
  l.map (fun r => ⟨r.wavelength, 0, r.depth, r.depth_err⟩)

/-- Section 3: the reference median, `base_med = df_niriss['depth'].median()`. -/
def baseMed (niriss : List SRow) : ℚ := median (niriss.map SRow.depth)

/-- Section 3: one iteration of the alignment loop,
`df['depth'] += (base_med - df['depth'].median())`.  The shift constant is
computed from the dataframe's own pre-alignment depths. -/
def alignTo (b : ℚ) (df : List SRow) : List SRow :=
  df.map (fun r => ⟨r.wavelength, r.wavelength_err,
    r.depth + (b - median (df.map SRow.depth)), r.depth_err⟩)

/-- A row of the merged table: columns `wavelength`, `depth`, `depth_err`,
where `depth_err` is `Option`-valued so that a pandas `NaN` (the
`df.get('depth_err', np.nan)` fallback) is an explicit `none`. -/
structure MRow where
  wavelength : ℚ
  depth : ℚ
  depth_err : Option ℚ
deriving DecidableEq

/-- Section 4 block standardisation: `tmp = df[['wavelength','depth']]`;
`tmp['depth_err'] = df.get('depth_err', np.nan)`.  All four dataframes carry
a `depth_err` column at this point (sections 2.1–2.4 assign one), so the
column, not the `np.nan` fallback, is taken. -/
def toBlock (df : List SRow) : List MRow :=
  df.map (fun r => ⟨r.wavelength, r.depth, some r.depth_err⟩)

/-- Section 4 concatenation order: `for df in (df_niriss, df_arch, df_prism, df_comb)`. -/
def concatBlocks (niriss arch prism comb : List SRow) : List MRow :=
  toBlock niriss ++ toBlock arch ++ toBlock prism ++ toBlock comb

/-- Ordering of merged rows by the `wavelength` column, the sort key of
`combined.sort_values('wavelength')`. -/
def rowLe (r s : MRow) : Prop := r.wavelength ≤ s.wavelength

instance : DecidableRel rowLe := fun r s => inferInstanceAs (Decidable (r.wavelength ≤ s.wavelength))

instance : IsTotal MRow rowLe := ⟨fun r s => le_total r.wavelength s.wavelength⟩

instance : IsTrans MRow rowLe := ⟨fun _ _ _ h h' => le_trans h h'⟩

/-- Model of the contract of `combined.sort_values('wavelength')` with the
default `kind='quicksort'`: pandas documents quicksort as *not stable*
('mergesort' and 'stable' are the only stable kinds), so all the call
guarantees is that the result is a permutation of the input that is
(non-strictly) ordered by the wavelength key — the relative order of rows
with tied wavelengths is unspecified.  `sortValuesResult rows sorted` says
that `sorted` is an admissible outcome of the sort on `rows`. -/
def sortValuesResult (rows sorted : List MRow) : Prop :=
  List.Perm sorted rows ∧ sorted.Sorted rowLe

/-- Section 4 merge tail,
`combined = combined.drop_duplicates(subset='wavelength', keep='first')`,
applied to an (admissible) outcome of `sort_values`: keep the first row in
the post-sort order bearing each wavelength. -/
def mergeRows (sorted : List MRow) : List MRow :=
  dedupKeys MRow.wavelength sorted

/-- One admissible outcome of `sort_values('wavelength')`: the stable
insertion sort, i.e. the outcome that `kind='mergesort'`/`'stable'` would
guarantee and that the default quicksort may or may not produce when
wavelengths tie (`sortQ_admissible` below; for inputs with pairwise-distinct
wavelengths every admissible outcome coincides with it,
`sortValuesResult_eq_sortQ_of_nodup_keys`). -/
def sortQ (rows : List MRow) : List MRow :=
  rows.insertionSort rowLe

/-- The concatenated, baseline-aligned rows of the four spectra in the
script's concatenation order (`pd.concat(blocks, ignore_index=True)`). -/
def concatRowsOf (niriss : List NirissRaw) (comb : List CombRaw)
    (arch : List ArchRaw) (prism : List PrismRaw) : List MRow :=
  concatBlocks (loadNiriss niriss)
    (alignTo (baseMed (loadNiriss niriss)) (loadArch arch))
    (alignTo (baseMed (loadNiriss niriss)) (loadPrism prism))
    (alignTo (baseMed (loadNiriss niriss)) (loadComb comb))

/-- The full pipeline of `maft_combine.py` sections 2–4: load, baseline-align
the three non-reference spectra to the NIRISS median, concatenate, sort,
deduplicate — evaluated at the `sortQ` outcome of the unstable sort (one of
its admissible outcomes; on inputs whose wavelengths are pairwise distinct,
such as the traced ones below, every admissible outcome gives this very
result, by `sortValuesResult_eq_sortQ_of_nodup_keys`). -/
def combinedOf (niriss : List NirissRaw) (comb : List CombRaw)
    (arch : List ArchRaw) (prism : List PrismRaw) : List MRow :=
  mergeRows (sortQ (concatRowsOf niriss comb arch prism))

/-! ### Structural lemmas about `dedupKeys` and stable sorting -/

section DedupLemmas

variable {α κ : Type} [DecidableEq κ] (key : α → κ)

theorem dedupKeysAux_sublist : ∀ (seen : List κ) (l : List α),
    List.Sublist (dedupKeysAux key seen l) l
  | _, [] => List.Sublist.refl _
  | seen, x :: xs => by
    unfold dedupKeysAux
    split
    · exact (dedupKeysAux_sublist seen xs).cons x
    · exact (dedupKeysAux_sublist (key x :: seen) xs).cons₂ x

theorem mem_keys_dedupKeysAux : ∀ (seen : List κ) (l : List α) (w : κ),
    w ∈ l.map key → w ∉ seen → w ∈ (dedupKeysAux key seen l).map key
  | _, [], _, hw, _ => absurd hw (by simp)
  | seen, x :: xs, w, hw, hs => by
    unfold dedupKeysAux
    by_cases hx : key x ∈ seen
    · rw [if_pos hx]
      have hwx : w ≠ key x := fun h => hs (h ▸ hx)
      have hw' : w ∈ xs.map key := by
        rcases List.mem_map.mp hw with ⟨y, hy, rfl⟩
        rcases List.mem_cons.mp hy with rfl | hy'
        · exact absurd rfl hwx
        · exact List.mem_map.mpr ⟨y, hy', rfl⟩
      exact mem_keys_dedupKeysAux seen xs w hw' hs
    · rw [if_neg hx]
      by_cases hwx : w = key x
      · exact List.mem_map.mpr ⟨x, List.mem_cons_self _ _, hwx.symm⟩
      · have hw' : w ∈ xs.map key := by
          rcases List.mem_map.mp hw with ⟨y, hy, rfl⟩
          rcases List.mem_cons.mp hy with rfl | hy'
          · exact absurd rfl hwx
          · exact List.mem_map.mpr ⟨y, hy', rfl⟩
        have hrec := mem_keys_dedupKeysAux (key x :: seen) xs w hw'
          (by
            simp only [List.mem_cons]
            rintro (h | h)
            · exact hwx h
            · exact hs h)
        simp only [List.map_cons, List.mem_cons]
        exact Or.inr hrec

theorem nodup_keys_dedupKeysAux : ∀ (seen : List κ) (l : List α),
    ((dedupKeysAux key seen l).map key).Nodup ∧
      ∀ w ∈ (dedupKeysAux key seen l).map key, w ∉ seen
  | _, [] => ⟨List.nodup_nil, by simp [dedupKeysAux]⟩
  | seen, x :: xs => by
    unfold dedupKeysAux
    split
    · exact nodup_keys_dedupKeysAux seen xs
    · have ih := nodup_keys_dedupKeysAux (key x :: seen) xs
      simp only [List.map_cons]
      refine ⟨List.nodup_cons.mpr ⟨fun hmem => ?_, ih.1⟩, ?_⟩
      · exact (ih.2 _ hmem) (List.mem_cons_self _ _)
      · intro w hw
        rcases List.mem_cons.mp hw with rfl | hw'
        · assumption
        · intro hws
          exact (ih.2 _ hw') (List.mem_cons_of_mem _ hws)

theorem head_filter_dedupKeysAux : ∀ (seen : List κ) (l : List α) (r : α),
    r ∈ dedupKeysAux key seen l →
      key r ∉ seen ∧ (l.filter (fun x => key x = key r)).head? = some r
  | _, [], _, hr => absurd hr (by simp [dedupKeysAux])
  | seen, x :: xs, r, hr => by
    unfold dedupKeysAux at hr
    by_cases hx : key x ∈ seen
    · rw [if_pos hx] at hr
      obtain ⟨hns, hh⟩ := head_filter_dedupKeysAux seen xs r hr
      refine ⟨hns, ?_⟩
      have hne : ¬ (key x = key r) := fun h => hns (h ▸ hx)
      simpa [List.filter_cons, hne] using hh
    · rw [if_neg hx] at hr
      rcases List.mem_cons.mp hr with rfl | hr'
      · exact ⟨hx, by simp [List.filter_cons]⟩
      · obtain ⟨hns, hh⟩ := head_filter_dedupKeysAux (key x :: seen) xs r hr'
        have hne : ¬ (key x = key r) := fun h => hns (by simp [h])
        refine ⟨fun h => hns (List.mem_cons_of_mem _ h), ?_⟩
        simpa [List.filter_cons, hne] using hh

theorem find?_eq_head?_filterList (p : α → Bool) : ∀ l : List α,
    l.find? p = (l.filter p).head?
  | [] => rfl
  | x :: xs => by
    by_cases hx : p x
    · rw [List.find?_cons_of_pos _ hx, List.filter_cons, if_pos hx, List.head?_cons]
    · rw [List.find?_cons_of_neg _ hx, List.filter_cons, if_neg hx,
        find?_eq_head?_filterList p xs]

end DedupLemmas

section Stability

variable {α : Type} {r : α → α → Prop} [DecidableRel r]

theorem filter_orderedInsert (p : α → Bool) (a : α)
    (hpa : ∀ b, p a = true → p b = true → r a b) : ∀ l : List α,
    (l.orderedInsert r a).filter p =
      if p a then a :: l.filter p else l.filter p
  | [] => by by_cases h : p a <;> simp [List.filter_cons, h]
  | b :: t => by
    unfold List.orderedInsert
    by_cases hab : r a b
    · rw [if_pos hab]
      rw [List.filter_cons]
    · rw [if_neg hab]
      by_cases hb : p b
      · have hnpa : ¬ (p a = true) := fun h => hab (hpa b h hb)
        rw [if_neg hnpa]
        rw [List.filter_cons, if_pos hb, List.filter_cons, if_pos hb,
          filter_orderedInsert p a hpa t, if_neg hnpa]
      · by_cases h : p a <;>
          simp [List.filter_cons, hb, h, filter_orderedInsert p a hpa t]

/-- Stability of insertion sort, in the form needed here: sorting does not
re-order the elements of any class on which the order relation is reflexive
(in particular, the class of rows sharing one wavelength). -/
theorem filter_insertionSort (p : α → Bool)
    (hp : ∀ x y, p x = true → p y = true → r x y) : ∀ l : List α,
    (l.insertionSort r).filter p = l.filter p
  | [] => rfl
  | a :: t => by
    rw [List.insertionSort, filter_orderedInsert p a (fun b => hp a b),
      filter_insertionSort p hp t, List.filter_cons]

end Stability

/-! ### Properties of the merge, quantified over the admissible sort outcomes -/

theorem sortQ_admissible (rows : List MRow) : sortValuesResult rows (sortQ rows) :=
  ⟨rows.perm_insertionSort rowLe, rows.sorted_insertionSort rowLe⟩

/-- Stability of the `sortQ` outcome: it does not re-order the rows of any
one wavelength class (this is the extra guarantee of `kind='mergesort'` /
`'stable'`, not of the default quicksort). -/
theorem sortQ_stable (rows : List MRow) (w : ℚ) :
    (sortQ rows).filter (fun s => s.wavelength = w)
      = rows.filter (fun s => s.wavelength = w) := by
  have hp : ∀ a b : MRow, (fun s : MRow => decide (s.wavelength = w)) a = true →
      (fun s : MRow => decide (s.wavelength = w)) b = true → rowLe a b := by
    intro a b ha hb
    have ha' : a.wavelength = w := of_decide_eq_true ha
    have hb' : b.wavelength = w := of_decide_eq_true hb
    exact le_of_eq (ha'.trans hb'.symm)
  exact filter_insertionSort (r := rowLe) _ hp rows

/-- The kept row for each wavelength is the first row of the *post-sort*
order bearing it — true of `drop_duplicates(keep='first')` on any sorted
outcome, stable or not. -/
theorem mergeRows_mem_first_sorted (sorted : List MRow) (x : MRow)
    (hx : x ∈ mergeRows sorted) :
    sorted.find? (fun s => s.wavelength = x.wavelength) = some x := by
  obtain ⟨-, hh⟩ := head_filter_dedupKeysAux MRow.wavelength [] _ x hx
  rw [find?_eq_head?_filterList]
  exact hh

theorem mergeRows_mem_keys (rows sorted : List MRow)
    (hadm : sortValuesResult rows sorted) (w : ℚ)
    (hw : w ∈ rows.map MRow.wavelength) :
    w ∈ (mergeRows sorted).map MRow.wavelength := by
  refine mem_keys_dedupKeysAux MRow.wavelength [] _ w ?_ (by simp)
  exact (hadm.1.map MRow.wavelength).mem_iff.mpr hw

theorem mergeRows_nodup_keys (sorted : List MRow) :
    ((mergeRows sorted).map MRow.wavelength).Nodup :=
  (nodup_keys_dedupKeysAux MRow.wavelength [] _).1

theorem mergeRows_sorted (sorted : List MRow) (hs : sorted.Sorted rowLe) :
    ((mergeRows sorted).map MRow.wavelength).Sorted (· ≤ ·) := by
  have hsub : List.Sublist (mergeRows sorted) sorted :=
    dedupKeysAux_sublist MRow.wavelength [] _
  have hmerge : (mergeRows sorted).Sorted rowLe := List.Pairwise.sublist hsub hs
  exact (List.pairwise_map).mpr hmerge

theorem mergeRows_subset (rows sorted : List MRow)
    (hadm : sortValuesResult rows sorted) : mergeRows sorted ⊆ rows := fun _y hy =>
  hadm.1.mem_iff.mp ((dedupKeysAux_sublist MRow.wavelength [] _).mem hy)

/-- A wavelength class of a list with pairwise-distinct wavelengths has at
most one row. -/
theorem filter_key_length_le_one : ∀ (rows : List MRow),
    (rows.map MRow.wavelength).Nodup → ∀ w : ℚ,
      (rows.filter (fun s => s.wavelength = w)).length ≤ 1
  | [], _, _ => by simp
  | x :: xs, hnd, w => by
    rw [List.map_cons] at hnd
    obtain ⟨hx, hxs⟩ := List.nodup_cons.mp hnd
    by_cases hxw : x.wavelength = w
    · rw [List.filter_cons_of_pos (by simpa using hxw)]
      have hnil : xs.filter (fun s => s.wavelength = w) = [] := by
        refine List.filter_eq_nil_iff.mpr (fun y hy => ?_)
        simp only [decide_eq_true_eq]
        intro hyw
        exact hx (List.mem_map.mpr ⟨y, hy, by rw [hyw, hxw]⟩)
      rw [hnil]
      simp
    · rw [List.filter_cons_of_neg (by simpa using hxw)]
      exact filter_key_length_le_one xs hxs w

theorem perm_eq_of_length_le_one {β : Type} (l₁ l₂ : List β)
    (h : List.Perm l₁ l₂) (hl : l₂.length ≤ 1) : l₁ = l₂ := by
  rcases l₂ with _ | ⟨a, rest⟩
  · exact h.eq_nil
  · have : rest = [] := by
      have := h.length_eq
      cases rest
      · rfl
      · simp at hl
    subst this
    exact List.perm_singleton.mp h

/-- On an input whose wavelengths are pairwise distinct, the unstable sort
has exactly one admissible outcome — `sortQ` — so the merge result is fully
determined. -/
theorem sortValuesResult_eq_sortQ_of_nodup_keys (rows sorted : List MRow)
    (hadm : sortValuesResult rows sorted)
    (hkeys : (rows.map MRow.wavelength).Nodup) : sorted = sortQ rows := by
  haveI : IsAntisymm MRow (fun a b => a.wavelength < b.wavelength) :=
    ⟨fun a b hab hba => absurd (lt_trans hab hba) (lt_irrefl _)⟩
  have hkeys' : ∀ l : List MRow, List.Perm l rows → l.Sorted rowLe →
      l.Pairwise (fun a b => a.wavelength < b.wavelength) := by
    intro l hperm hsort
    have hnd : (l.map MRow.wavelength).Nodup :=
      ((hperm.map MRow.wavelength).nodup_iff).mpr hkeys
    have hnd' : l.Pairwise (fun a b => a.wavelength ≠ b.wavelength) :=
      (List.pairwise_map).mp hnd
    exact hsort.imp₂ (fun a b hab hne => lt_of_le_of_ne hab hne) hnd'
  exact List.eq_of_perm_of_sorted (hadm.1.trans (sortQ_admissible rows).1.symm)
    (hkeys' sorted hadm.1 hadm.2)
    (hkeys' (sortQ rows) (sortQ_admissible rows).1 (sortQ_admissible rows).2)

/-! ### Median lemmas (for the baseline-alignment property) -/

theorem getD_map_q (f : ℚ → ℚ) (l : List ℚ) (i : ℕ) (h : i < l.length) :
    (l.map f).getD i 0 = f (l.getD i 0) := by
  rw [List.getD_eq_getElem _ _ (by simpa using h), List.getD_eq_getElem _ _ h,
    List.getElem_map]

theorem insertionSort_map_add (c : ℚ) (l : List ℚ) :
    (l.map (fun v => v + c)).insertionSort (· ≤ ·) =
      (l.insertionSort (· ≤ ·)).map (fun v => v + c) := by
  haveI : IsAntisymm ℚ (fun x1 x2 => x1 ≤ x2) := ⟨fun _ _ => le_antisymm⟩
  refine List.eq_of_perm_of_sorted (r := (· ≤ ·)) ?_ ?_ ?_
  · refine List.Perm.trans ((l.map (fun v => v + c)).perm_insertionSort _) ?_
    exact (List.Perm.map _ (l.perm_insertionSort _)).symm
  · exact List.sorted_insertionSort _ _
  · refine (List.pairwise_map).mpr ?_
    exact (l.sorted_insertionSort _).imp (fun h => by simpa using h)

theorem median_map_add (c : ℚ) (l : List ℚ) (hl : l ≠ []) :
    median (l.map (fun v => v + c)) = median l + c := by
  have hlen : 0 < l.length := List.length_pos.mpr hl
  unfold median
  rw [List.length_map, insertionSort_map_add]
  have hslen : (l.insertionSort (· ≤ ·)).length = l.length :=
    (l.perm_insertionSort _).length_eq
  by_cases hodd : l.length % 2 = 1
  · rw [if_pos hodd, if_pos hodd, getD_map_q _ _ _ (by rw [hslen]; exact Nat.div_lt_self hlen one_lt_two)]
  · rw [if_neg hodd, if_neg hodd]
    have hi2 : l.length / 2 < l.length := Nat.div_lt_self hlen one_lt_two
    have hi1 : l.length / 2 - 1 < l.length := lt_of_le_of_lt (Nat.sub_le _ _) hi2
    rw [getD_map_q _ _ _ (by rw [hslen]; exact hi1), getD_map_q _ _ _ (by rw [hslen]; exact hi2)]
    ring

theorem median_alignTo (b : ℚ) (df : List SRow) (hdf : df ≠ []) :
    median ((alignTo b df).map SRow.depth) = b := by
  have hmap : (alignTo b df).map SRow.depth =
      (df.map SRow.depth).map (fun v => v + (b - median (df.map SRow.depth))) := by
    unfold alignTo
    rw [List.map_map, List.map_map]
    rfl
  rw [hmap, median_map_add _ _ (by simpa using hdf)]
  ring

/-! ### Claim theorems for the merge component -/

/-- Claim **C1 counterexample.** `sort_values('wavelength')` runs with the
default `kind='quicksort'`, which pandas documents as not stable: the
relative order of rows with tied wavelengths after the sort is unspecified.
Take the two concatenated rows `r1 = ⟨1, 1, some 1⟩` (first in concatenation
order) and `r2 = ⟨1, 2, some 2⟩`, sharing wavelength 1: the list `[r2, r1]`
is an admissible outcome of the sort (a permutation of the concatenation
that is ordered by the tied wavelength key), and
`drop_duplicates(subset='wavelength', keep='first')` applied to it keeps
`r2` — not `r1`, the first occurrence in the concatenation order, which the
claim requires.  So the program does not guarantee the claimed
first-in-concatenation-order tie-break. -/
theorem merge_tie_break_counterexample :
    sortValuesResult [(⟨1, 1, some 1⟩ : MRow), ⟨1, 2, some 2⟩]
        [⟨1, 2, some 2⟩, ⟨1, 1, some 1⟩] ∧
    mergeRows [(⟨1, 2, some 2⟩ : MRow), ⟨1, 1, some 1⟩] = [⟨1, 2, some 2⟩] ∧
    [(⟨1, 1, some 1⟩ : MRow), ⟨1, 2, some 2⟩].find?
      (fun s => s.wavelength = (1 : ℚ)) = some ⟨1, 1, some 1⟩ ∧
    (⟨1, 2, some 2⟩ : MRow) ≠ ⟨1, 1, some 1⟩ := by
  refine ⟨⟨List.Perm.swap (⟨1, 1, some 1⟩ : MRow) ⟨1, 2, some 2⟩ [], ?_⟩, ?_, ?_, ?_⟩
  · decide
  · decide
  · decide
  · decide

/-- Claim **C1 amended.** After concatenating the aligned spectra, the code
sorts with `sort_values('wavelength')` — default `kind='quicksort'`,
documented by pandas as unstable, tie order unspecified — and deduplicates
with `drop_duplicates(subset='wavelength', keep='first')`.  For every
admissible outcome of that sort: (i) each output point is one of the
concatenated rows, so for each duplicated wavelength *some* tied row is
kept and the rest are silently dropped, the choice being left to the
unspecified tie order rather than to the concatenation order; (ii) every
wavelength value occurring anywhere in the concatenation — however close to
another value — still occurs in the output: exact equality is the only
merging criterion, with no tolerance-based merging; (iii) the kept row for
each wavelength is the first row of the *post-sort* order bearing it; (iv)
whenever the sort preserves the concatenation order inside each wavelength
class — the stability that only `kind='mergesort'`/`'stable'` would
guarantee — the kept point is exactly the first occurrence in concatenation
order; and (v) when no two concatenated rows share a wavelength, the
first-occurrence conclusion holds unconditionally, for every admissible
outcome. -/
theorem merge_keeps_first_occurrence (niriss : List NirissRaw) (comb : List CombRaw)
    (arch : List ArchRaw) (prism : List PrismRaw) (sorted : List MRow)
    (hadm : sortValuesResult (concatRowsOf niriss comb arch prism) sorted) :
    (∀ x ∈ mergeRows sorted, x ∈ concatRowsOf niriss comb arch prism) ∧
    (∀ w ∈ (concatRowsOf niriss comb arch prism).map MRow.wavelength,
      w ∈ (mergeRows sorted).map MRow.wavelength) ∧
    (∀ x ∈ mergeRows sorted,
      sorted.find? (fun s => s.wavelength = x.wavelength) = some x) ∧
    ((∀ w : ℚ, sorted.filter (fun s => s.wavelength = w)
        = (concatRowsOf niriss comb arch prism).filter (fun s => s.wavelength = w)) →
      ∀ x ∈ mergeRows sorted,
        (concatRowsOf niriss comb arch prism).find?
          (fun s => s.wavelength = x.wavelength) = some x) ∧
    (((concatRowsOf niriss comb arch prism).map MRow.wavelength).Nodup →
      ∀ x ∈ mergeRows sorted,
        (concatRowsOf niriss comb arch prism).find?
          (fun s => s.wavelength = x.wavelength) = some x) := by
  have hstable : (∀ w : ℚ, sorted.filter (fun s => s.wavelength = w)
      = (concatRowsOf niriss comb arch prism).filter (fun s => s.wavelength = w)) →
      ∀ x ∈ mergeRows sorted,
        (concatRowsOf niriss comb arch prism).find?
          (fun s => s.wavelength = x.wavelength) = some x := by
    intro hst x hx
    obtain ⟨-, hh⟩ := head_filter_dedupKeysAux MRow.wavelength [] _ x hx
    rw [hst x.wavelength] at hh
    rw [find?_eq_head?_filterList]
    exact hh
  refine ⟨fun x hx => mergeRows_subset _ sorted hadm hx,
    fun w hw => mergeRows_mem_keys _ sorted hadm w hw,
    fun x hx => mergeRows_mem_first_sorted sorted x hx,
    hstable, ?_⟩
  intro hkeys x hx
  refine hstable (fun w => ?_) x hx
  exact perm_eq_of_length_le_one _ _ (hadm.1.filter _)
    (filter_key_length_le_one _ hkeys w)

theorem merge_keeps_first_occurrence_witness :
    sortValuesResult (concatRowsOf [⟨1, 0, 10000, 100⟩] [⟨1, 3/250⟩, ⟨3, 2/100⟩] [] [])
        (sortQ (concatRowsOf [⟨1, 0, 10000, 100⟩] [⟨1, 3/250⟩, ⟨3, 2/100⟩] [] [])) ∧
    ((⟨1, 1/100, some (1/10000)⟩ : MRow) ∈
      concatRowsOf [⟨1, 0, 10000, 100⟩] [⟨1, 3/250⟩, ⟨3, 2/100⟩] [] []) := by
  have hEq : mergeRows (sortQ
        (concatRowsOf [⟨1, 0, 10000, 100⟩] [⟨1, 3/250⟩, ⟨3, 2/100⟩] [] []))
      = [⟨1, 1/100, some (1/10000)⟩, ⟨3, 7/500, some 0⟩] := by
    norm_num [concatRowsOf, concatBlocks, toBlock, loadNiriss, loadComb,
      loadArch, loadPrism, alignTo, baseMed, median, mergeRows, sortQ, dedupKeys,
      dedupKeysAux, rowLe]
  have hmem : (⟨1, 1/100, some (1/10000)⟩ : MRow) ∈ mergeRows (sortQ
      (concatRowsOf [⟨1, 0, 10000, 100⟩] [⟨1, 3/250⟩, ⟨3, 2/100⟩] [] [])) := by
    rw [hEq]
    exact List.mem_cons_self _ _
  exact ⟨sortQ_admissible _,
    (merge_keeps_first_occurrence [⟨1, 0, 10000, 100⟩] [⟨1, 3/250⟩, ⟨3, 2/100⟩] [] []
      (sortQ (concatRowsOf [⟨1, 0, 10000, 100⟩] [⟨1, 3/250⟩, ⟨3, 2/100⟩] [] []))
      (sortQ_admissible _)).1 _ hmem⟩

/-- Claim **C6.** Every `CombinedSpectrum` produced by the merge has pairwise
distinct wavelength values and is ordered ascending by wavelength. -/
theorem combined_unique_sorted (niriss : List NirissRaw) (comb : List CombRaw)
    (arch : List ArchRaw) (prism : List PrismRaw) :
    ((combinedOf niriss comb arch prism).map MRow.wavelength).Nodup ∧
    ((combinedOf niriss comb arch prism).map MRow.wavelength).Sorted (· ≤ ·) :=
  ⟨mergeRows_nodup_keys _, mergeRows_sorted _ (sortQ_admissible _).2⟩

/-- Claim **C2 counterexample.** The combined-model table (the layout with no error
columns) gets `df_comb['depth_err'] = 0.0` assigned at load time
(`maft_combine.py` line 63), so the merged point it contributes carries the
fabricated value `0.0`, not an absent marker: with one NIRISS row at
wavelength 1 and one combined-model row at wavelength 2, the merged point at
wavelength 2 has `depth_err = some 0`, although no contributing source
supplied a depth error for it.  This falsifies the claim that a source whose
layout has no error columns contributes an absent marker and that a missing
uncertainty is never replaced by 0.0. -/
theorem merged_depth_err_zero_for_errorless_source :
    ((combinedOf [⟨1, 0, 10000, 100⟩] [⟨2, 1/100⟩] [] []).filter
      (fun p => p.wavelength = 2)).map MRow.depth_err = [some 0] := by decide

/-- Claim **C2 amended.** On every merged point `depth_err` is present (a number,
possibly the fabricated `0.0`): all four loaders assign a `depth_err` column
(the no-error-column layout gets the literal `0.0`), so the
`df.get('depth_err', np.nan)` fallback never produces an absent value and no
merged point has an absent `depth_err`. -/
theorem merged_depth_err_always_present (niriss : List NirissRaw) (comb : List CombRaw)
    (arch : List ArchRaw) (prism : List PrismRaw) :
    ∀ p ∈ combinedOf niriss comb arch prism, p.depth_err.isSome = true := by
  have hblock : ∀ (df : List SRow) (p : MRow), p ∈ toBlock df → p.depth_err.isSome = true := by
    intro df p hp
    rcases List.mem_map.mp hp with ⟨r, -, rfl⟩
    rfl
  intro p hp
  have hp' := mergeRows_subset _ _ (sortQ_admissible _) hp
  unfold concatRowsOf concatBlocks at hp'
  simp only [List.mem_append] at hp'
  rcases hp' with ((h | h) | h) | h <;> exact hblock _ _ h

theorem merged_depth_err_always_present_witness :
    ((⟨1, 1/100, some (1/10000)⟩ : MRow) ∈ combinedOf [⟨1, 0, 10000, 100⟩] [] [] []) ∧
      (⟨1, 1/100, some (1/10000)⟩ : MRow).depth_err.isSome = true := by
  have hEq : combinedOf [⟨1, 0, 10000, 100⟩] [] [] []
      = [⟨1, 1/100, some (1/10000)⟩] := by
    norm_num [combinedOf, concatRowsOf, concatBlocks, toBlock, loadNiriss, loadComb,
      loadArch, loadPrism, alignTo, baseMed, median, mergeRows, dedupKeys, dedupKeysAux, rowLe]
  have hmem : (⟨1, 1/100, some (1/10000)⟩ : MRow) ∈
      combinedOf [⟨1, 0, 10000, 100⟩] [] [] [] := by
    rw [hEq]; exact List.mem_cons_self _ _
  exact ⟨hmem,
    merged_depth_err_always_present [⟨1, 0, 10000, 100⟩] [] [] []
      ⟨1, 1/100, some (1/10000)⟩ hmem⟩

/-- Claim **C5.** Baseline alignment shifts every depth of a non-reference
spectrum by the single constant `base_med - median(own depths)`, the own
median being computed from that spectrum's pre-alignment depths only; as a
consequence, each of the three aligned spectra has median depth equal to the
NIRISS reference median. -/
theorem baseline_alignment_medians (niriss : List NirissRaw) (comb : List CombRaw)
    (arch : List ArchRaw) (prism : List PrismRaw)
    (_hn : niriss ≠ []) (hc : comb ≠ []) (ha : arch ≠ []) (hp : prism ≠ []) :
    (∀ df : List SRow, alignTo (baseMed (loadNiriss niriss)) df =
        df.map (fun r => ⟨r.wavelength, r.wavelength_err,
          r.depth + (baseMed (loadNiriss niriss) - median (df.map SRow.depth)),
          r.depth_err⟩)) ∧
    median ((alignTo (baseMed (loadNiriss niriss)) (loadComb comb)).map SRow.depth)
        = baseMed (loadNiriss niriss) ∧
    median ((alignTo (baseMed (loadNiriss niriss)) (loadArch arch)).map SRow.depth)
        = baseMed (loadNiriss niriss) ∧
    median ((alignTo (baseMed (loadNiriss niriss)) (loadPrism prism)).map SRow.depth)
        = baseMed (loadNiriss niriss) := by
  refine ⟨fun df => rfl, ?_, ?_, ?_⟩
  · exact median_alignTo _ _ (by simpa [loadComb] using hc)
  · exact median_alignTo _ _ (by simpa [loadArch] using ha)
  · exact median_alignTo _ _ (by simpa [loadPrism] using hp)

theorem baseline_alignment_medians_witness :
    ([(⟨1, 0, 10000, 100⟩ : NirissRaw)] ≠ []) ∧ ([(⟨2, 1/100⟩ : CombRaw)] ≠ []) ∧
      ([(⟨3, 0, 2/100, 1/1000, 5⟩ : ArchRaw)] ≠ []) ∧
      ([(⟨4, 3/100, 1/1000⟩ : PrismRaw)] ≠ []) ∧
      median ((alignTo (baseMed (loadNiriss [⟨1, 0, 10000, 100⟩]))
          (loadComb [⟨2, 1/100⟩])).map SRow.depth)
        = baseMed (loadNiriss [⟨1, 0, 10000, 100⟩]) :=
  ⟨by decide, by decide, by decide, by decide,
    (baseline_alignment_medians [⟨1, 0, 10000, 100⟩] [⟨2, 1/100⟩]
      [⟨3, 0, 2/100, 1/1000, 5⟩] [⟨4, 3/100, 1/1000⟩]
      (by decide) (by decide) (by decide) (by decide)).2.1⟩

end ExoMaft

namespace ExoMaft

/-! ### Clustering primitives (`maft_feature_tracking.py` lines 145–150,
`maft_cross_correlation.py` lines 170–173) -/

section Clustering

variable {α : Type} [LinearOrderedField α] [FloorRing α] [Inhabited α]

/-- Model of `numpy.arange(a, b, w)`: the values `a + k*w` for
`k < ⌈(b - a)/w⌉` (empty when that ceiling is not positive). -/
def npArange (a b w : α) : List α :=
  (List.range (Int.ceil ((b - a) / w)).toNat).map (fun (k : ℕ) => a + (k : α) * w)

/-- Model of `numpy.digitize(x, bins)` (default `right=False`) for an ascending edge
array: the index `i` with `bins[i-1] ≤ x < bins[i]`, which for sorted edges
is the number of edges `≤ x` (0 below all edges, `len(bins)` at or above the
last edge). -/
def digitize (x : α) (bins : List α) : ℕ := bins.countP (fun e => e ≤ x)

/-- Model of `numpy.unique`: the sorted distinct values. -/
def npUnique (l : List ℕ) : List ℕ := (l.insertionSort (· ≤ ·)).dedup

/-- Model of `numpy.mean`: sum divided by length (junk `0` on `[]`, where numpy
returns `NaN` with a runtime warning). -/
def npMean (l : List α) : α := l.sum / l.length

/-- Lines 148–150 of `maft_feature_tracking.py` (identically lines 171–173 of
`maft_cross_correlation.py`):
`bins = np.arange(wave.min(), wave.max() + w, w)`;
`inds = np.digitize(strongest, bins)`;
`centers = [strongest[inds == b].mean() for b in np.unique(inds)]`. -/
def clusterCenters (strongest : List α) (wave : List α) (w : α) : List α :=
  let bins := npArange (npMin wave) (npMax wave + w) w
  let inds := strongest.map (fun x => digitize x bins)
  (npUnique inds).map (fun b => npMean (strongest.filter (fun x => digitize x bins = b)))

end Clustering

/-- Model of `pandas.DataFrame.nlargest(n, col, keep='first')`: the first `n` rows of
the stable descending sort by `val` (ties keep the earlier row). -/
def nlargestBy {β : Type} (val : β → ℚ) (n : ℕ) (l : List β) : List β :=
  (@List.insertionSort β (fun x y => val y ≤ val x)
    (fun x y => inferInstanceAs (Decidable (val y ≤ val x))) l).take n

/-! ### Fixed-width line-catalog parsing -/

/-- Decimal value of a digit list. -/
def digitsToNat (cs : List Char) : ℕ :=
  cs.foldl (fun acc c => acc * 10 + (c.toNat - 48)) 0

/-- Model of `str.strip()`: drop leading and trailing whitespace. -/
def trimChars (cs : List Char) : List Char :=
  ((cs.dropWhile Char.isWhitespace).reverse.dropWhile Char.isWhitespace).reverse

/-- Stage-one acceptance test of one id field:
`s.str.strip().str.fullmatch(r'\d+')`. -/
def isDigitsStr (s : String) : Bool :=
  let t := trimChars s.toList
  !t.isEmpty && t.all Char.isDigit

/-- Python `int(...)` on a trimmed field (the per-value behaviour of
`astype(int)` on a string column): optional sign followed by digits. -/
def parseIntStr (s : String) : Option ℤ :=
  match trimChars s.toList with
  | [] => none
  | '-' :: cs =>
    if !cs.isEmpty && cs.all Char.isDigit then some (-(digitsToNat cs : ℤ)) else none
  | '+' :: cs =>
    if !cs.isEmpty && cs.all Char.isDigit then some (digitsToNat cs : ℤ) else none
  | cs =>
    if cs.all Char.isDigit then some (digitsToNat cs : ℤ) else none

/-- Unsigned decimal mantissa: digits, optionally with `.` and more digits. -/
def parseMantissa (cs : List Char) : Option ℚ :=
  let sp := cs.span Char.isDigit
  match sp.2 with
  | [] => if sp.1.isEmpty then none else some (digitsToNat sp.1 : ℚ)
  | '.' :: rest2 =>
    let sp2 := rest2.span Char.isDigit
    if sp2.2.isEmpty && !(sp.1.isEmpty && sp2.1.isEmpty) then
      some ((digitsToNat sp.1 : ℚ) + (digitsToNat sp2.1 : ℚ) / (10 ^ sp2.1.length))
    else none
  | _ => none

/-- Optionally signed mantissa. -/
def parseSignedMantissa : List Char → Option ℚ
  | '-' :: cs => (parseMantissa cs).map (fun q => -q)
  | '+' :: cs => parseMantissa cs
  | cs => parseMantissa cs

/-- One field under `pd.to_numeric(..., errors='coerce')` / `astype(float)`:
an optionally signed decimal literal with optional `e`/`E` exponent,
`none` for anything else (pandas `NaN`). -/
def parseQStr (s : String) : Option ℚ :=
  let cs := trimChars s.toList
  let sp := cs.span (fun c => !(c == 'e' || c == 'E'))
  match sp.2 with
  | [] => parseSignedMantissa sp.1
  | _ :: ecs =>
    match parseSignedMantissa sp.1, parseIntStr (String.mk ecs) with
    | some m, some e => some (m * (10 : ℚ) ^ e)
    | _, _ => none

/-- The ten fixed-width fields of one catalog line, as cut by the `colspecs`
`(0,2)(2,3)(3,15)(15,25)(25,35)(35,40)(40,45)(45,55)(55,59)(59,67)` and named
`molec_id, local_iso_id, nu, sw, a, gamma_air, gamma_self, elower, n_air,
delta_air`. -/
structure RawRow where
  molec_id : String
  local_iso_id : String
  nu : String
  sw : String
  a : String
  gamma_air : String
  gamma_self : String
  elower : String
  n_air : String
  delta_air : String
deriving DecidableEq

/-- A typed line record of the feature-tracking loader: ids are integers,
`nu` and `sw` are guaranteed numbers, the remaining coerced columns may be
missing (`NaN`), and `wavelength_um = 1e4 / nu`. -/
structure LineRec where
  molec_id : ℤ
  local_iso_id : ℤ
  nu : ℚ
  sw : ℚ
  a : Option ℚ
  gamma_air : Option ℚ
  gamma_self : Option ℚ
  elower : Option ℚ
  n_air : Option ℚ
  delta_air : Option ℚ
  wavelength_um : ℚ
deriving DecidableEq

/-- Stage one of `load_linelist_par` (`maft_feature_tracking.py` line 101):
`is_int(df['molec_id']) & is_int(df['local_iso_id'])`. -/
def acceptIds (r : RawRow) : Bool := isDigitsStr r.molec_id && isDigitsStr r.local_iso_id

/-- Stage two: numeric coercion with `errors='coerce'`, then
`df.dropna(subset=['nu','sw'])` and `df['wavelength_um'] = 1e4/df['nu']`. -/
def mkLineRec (r : RawRow) : Option LineRec :=
  match parseQStr r.nu, parseQStr r.sw with
  | some nu, some sw =>
    some ⟨(parseIntStr r.molec_id).getD 0, (parseIntStr r.local_iso_id).getD 0,
      nu, sw, parseQStr r.a, parseQStr r.gamma_air, parseQStr r.gamma_self,
      parseQStr r.elower, parseQStr r.n_air, parseQStr r.delta_air, 10000 / nu⟩
  | _, _ => none

/-- Model of `load_linelist_par` of `maft_feature_tracking.py` (lines 79–112): keep
only rows whose two id fields are all-digit strings (dropping the others
silently), coerce the numeric columns, drop rows still missing `nu` or `sw`,
and derive `wavelength_um`.  The function is total: a malformed row never
aborts the load. -/
def load_linelist_par (rows : List RawRow) : List LineRec :=
  (rows.filter acceptIds).filterMap mkLineRec

/-- The pandas exceptions that the two loaders can surface, plus Python's
`NameError` for an unbound module-level name. -/
inductive PdError where
  | valueError
  | nameError
deriving DecidableEq

/-- Truncation toward zero, Python `int()` of a float. -/
def ratTrunc (q : ℚ) : ℤ := q.num / (q.den : ℤ)

/-- Model of `read_fwf` column-type inference followed by `astype(int)` on an id
column of `CrossCorrelator.load_linelist_par`: an all–integer-literal column
casts directly; an all–float-literal column is truncated toward zero;
anything else raises `ValueError`. -/
def astypeIntCol (col : List String) : Except PdError (List ℤ) :=
  match col.mapM parseIntStr with
  | some vs => Except.ok vs
  | none =>
    match col.mapM parseQStr with
    | some qs => Except.ok (qs.map ratTrunc)
    | none => Except.error PdError.valueError

/-- Model of `astype(float)` on a numeric column: every field must be a numeric
literal, otherwise `ValueError`. -/
def astypeFloatCol (col : List String) : Except PdError (List ℚ) :=
  match col.mapM parseQStr with
  | some qs => Except.ok qs
  | none => Except.error PdError.valueError

/-- A typed line record of `CrossCorrelator.load_linelist_par`: every column
is required (this loader performs no per-row dropping at all). -/
structure LineRecCC where
  molec_id : ℤ
  local_iso_id : ℤ
  nu : ℚ
  sw : ℚ
  a : ℚ
  gamma_air : ℚ
  gamma_self : ℚ
  elower : ℚ
  n_air : ℚ
  delta_air : ℚ
  wavelength_um : ℚ
deriving DecidableEq

/-- Reassemble the cast columns into rows (`wavelength_um = 1e4/nu`). -/
def buildCC : List ℤ → List ℤ → List ℚ → List ℚ → List ℚ → List ℚ → List ℚ →
    List ℚ → List ℚ → List ℚ → List LineRecCC
  | m :: ms, i :: iss, nu :: nus, sw :: sws, av :: avs, ga :: gas, gs :: gss,
      el :: els, na :: nas, da :: das =>
    ⟨m, i, nu, sw, av, ga, gs, el, na, da, 10000 / nu⟩ ::
      buildCC ms iss nus sws avs gas gss els nas das
  | _, _, _, _, _, _, _, _, _, _ => []

/-- Model of `CrossCorrelator.load_linelist_par` (`maft_cross_correlation.py` lines
111–133): no digit pre-filtering — the id columns are cast with
`astype(int)` and every numeric column with `astype(float)`, so a single
malformed field aborts the whole load with `ValueError`. -/
def load_linelist_par_cc (rows : List RawRow) : Except PdError (List LineRecCC) := do
  let mids ← astypeIntCol (rows.map RawRow.molec_id)
  let iids ← astypeIntCol (rows.map RawRow.local_iso_id)
  let nus ← astypeFloatCol (rows.map RawRow.nu)
  let sws ← astypeFloatCol (rows.map RawRow.sw)
  let avs ← astypeFloatCol (rows.map RawRow.a)
  let gas ← astypeFloatCol (rows.map RawRow.gamma_air)
  let gss ← astypeFloatCol (rows.map RawRow.gamma_self)
  let els ← astypeFloatCol (rows.map RawRow.elower)
  let nas ← astypeFloatCol (rows.map RawRow.n_air)
  let das ← astypeFloatCol (rows.map RawRow.delta_air)
  return buildCC mids iids nus sws avs gas gss els nas das

end ExoMaft

namespace ExoMaft

/-! ### Clustering lemmas -/

theorem digitize_le_length {α : Type} [LinearOrderedField α] (x : α) (bins : List α) :
    digitize x bins ≤ bins.length := by
  unfold digitize
  rw [List.countP_eq_length_filter]
  exact List.length_filter_le _ _

theorem mem_of_mem_npUnique (l : List ℕ) (b : ℕ) (hb : b ∈ npUnique l) : b ∈ l := by
  unfold npUnique at hb
  have hs := List.mem_dedup.mp hb
  exact (l.perm_insertionSort (· ≤ ·)).mem_iff.mp hs

theorem npUnique_nodup (l : List ℕ) : (npUnique l).Nodup := List.nodup_dedup _

theorem length_le_of_nodup_lt (l : List ℕ) (N : ℕ) (hn : l.Nodup) (hb : ∀ x ∈ l, x < N) :
    l.length ≤ N := by
  have hcard : l.toFinset.card = l.length := List.toFinset_card_of_nodup hn
  have hsub : l.toFinset ⊆ Finset.range N := fun x hx =>
    Finset.mem_range.mpr (hb x (List.mem_toFinset.mp hx))
  calc l.length = l.toFinset.card := hcard.symm
    _ ≤ (Finset.range N).card := Finset.card_le_card hsub
    _ = N := Finset.card_range N

theorem npArange_length {α : Type} [LinearOrderedField α] [FloorRing α] [Inhabited α]
    (a b w : α) : (npArange a b w).length = (Int.ceil ((b - a) / w)).toNat := by
  unfold npArange
  rw [List.length_map, List.length_range]

/-- Every emitted cluster center is the arithmetic mean of the (nonempty) set
of selected wavelengths falling in its digitize class. -/
theorem clusterCenters_mean (strongest wave : List ℚ) (w : ℚ) (c : ℚ)
    (hc : c ∈ clusterCenters strongest wave w) :
    ∃ b : ℕ,
      (strongest.filter
        (fun x => digitize x (npArange (npMin wave) (npMax wave + w) w) = b)) ≠ [] ∧
      c = npMean (strongest.filter
        (fun x => digitize x (npArange (npMin wave) (npMax wave + w) w) = b)) := by
  unfold clusterCenters at hc
  rcases List.mem_map.mp hc with ⟨b, hb, rfl⟩
  refine ⟨b, ?_, rfl⟩
  have hbmem : b ∈ strongest.map
      (fun x => digitize x (npArange (npMin wave) (npMax wave + w) w)) :=
    mem_of_mem_npUnique _ _ hb
  rcases List.mem_map.mp hbmem with ⟨x, hx, hxb⟩
  intro hnil
  have : x ∈ strongest.filter
      (fun y => digitize y (npArange (npMin wave) (npMax wave + w) w) = b) :=
    List.mem_filter.mpr ⟨hx, by simpa using hxb⟩
  rw [hnil] at this
  exact (List.not_mem_nil x) this

/-- The number of emitted clusters is the number of occupied digitize
classes, which is bounded by the number of bin edges plus one: the classes
below the first edge and at or above the last edge exist in addition to the
`len(bins) - 1` interior bins. -/
theorem clusterCenters_length_le (strongest wave : List ℚ) (w : ℚ) (hw : w ≠ 0) :
    (clusterCenters strongest wave w).length ≤
      (Int.ceil ((npMax wave - npMin wave) / w)).toNat + 2 := by
  unfold clusterCenters
  rw [List.length_map]
  have hlen : (npArange (npMin wave) (npMax wave + w) w).length
      = (Int.ceil ((npMax wave - npMin wave) / w + 1)).toNat := by
    rw [npArange_length]
    congr 2
    field_simp
    ring
  have hboundall : ∀ b ∈ npUnique (strongest.map
      (fun x => digitize x (npArange (npMin wave) (npMax wave + w) w))),
      b < (npArange (npMin wave) (npMax wave + w) w).length + 1 := by
    intro b hb
    have hbm := mem_of_mem_npUnique _ _ hb
    rcases List.mem_map.mp hbm with ⟨x, -, rfl⟩
    exact Nat.lt_succ_of_le (digitize_le_length _ _)
  have hle := length_le_of_nodup_lt _ _ (npUnique_nodup _) hboundall
  refine hle.trans ?_
  rw [hlen, Int.ceil_add_one]
  omega

end ExoMaft

namespace ExoMaft

/-! ### The feature-tracking script (`maft_feature_tracking.py`) -/

/-- The configured molecule map `MOLECULES` (name, HITRAN molecule id). -/
def MOLECULES : List (String × ℤ) :=
  [("H2O", 1), ("CO2", 2), ("NH3", 3), ("CO", 5), ("CH4", 6), ("HCN", 8)]

/-- The constant `TOP_N = 30`: strongest lines per molecule. -/
def TOP_N : ℕ := 30

/-- The constant `BIN_WIDTH = 0.02` µm. -/
def BIN_WIDTH : ℚ := 1/50

/-- One iteration of the per-molecule loop (lines 138–154): select the
molecule's lines (`dfm`), skip the molecule if `dfm` is empty, take the
`TOP_N` strongest by `sw`, cluster over the spectrum's wavelength range, and
record one `(name, center)` row per cluster center. -/
def outRowsFor (lines : List LineRec) (wave : List ℚ) (nm : String) (mid : ℤ) :
    List (String × ℚ) :=
  if (lines.filter (fun r => r.molec_id = mid)).isEmpty then []
  else (clusterCenters
    ((nlargestBy LineRec.sw TOP_N (lines.filter (fun r => r.molec_id = mid))).map
      LineRec.wavelength_um) wave BIN_WIDTH).map (fun lam => (nm, lam))

/-- The whole loop over `MOLECULES.items()`, appending to `out_rows`. -/
def outRowsLoop (lines : List LineRec) (wave : List ℚ) (mols : List (String × ℤ)) :
    List (String × ℚ) :=
  mols.flatMap (fun m => outRowsFor lines wave m.1 m.2)

/-- Whether `maft_feature_tracking.py` ever assigns the module-level name
`lines` before the per-molecule loop reads it at line 140
(`dfm = lines[lines['molec_id'] == mol_id]`): it does not —
`load_linelist_par` is defined at line 79 but never called, and no other
assignment to `lines` exists in the module. -/
def featureTrackingBindsLines : Bool := false

/-- Sections 2–6 of `maft_feature_tracking.py` as a function of its parsed
inputs.  Were the name `lines` bound (to the loader's output, as the module
docstring intends), the loop would produce `out_rows` and the feature table;
since it is not, every run stops with `NameError` at the first loop
iteration, before any row is emitted. -/
def featureTrackingOutRows (wave : List ℚ) (parRows : List RawRow) :
    Except PdError (List (String × ℚ)) :=
  if featureTrackingBindsLines then
    Except.ok (outRowsLoop (load_linelist_par parRows) wave MOLECULES)
  else Except.error PdError.nameError

theorem outRowsFor_fst (lines : List LineRec) (wave : List ℚ) (nm : String) (mid : ℤ) :
    ∀ p ∈ outRowsFor lines wave nm mid, p.1 = nm := by
  intro p hp
  unfold outRowsFor at hp
  split at hp
  · exact absurd hp (List.not_mem_nil p)
  · rcases List.mem_map.mp hp with ⟨lam, -, rfl⟩
    rfl

theorem mem_outRowsLoop_fst (lines : List LineRec) (wave : List ℚ)
    (mols : List (String × ℤ)) :
    ∀ p ∈ outRowsLoop lines wave mols, p.1 ∈ mols.map Prod.fst := by
  intro p hp
  rcases List.mem_flatMap.mp hp with ⟨m, hm, hpm⟩
  rw [outRowsFor_fst lines wave m.1 m.2 p hpm]
  exact List.mem_map.mpr ⟨m, hm, rfl⟩

/-- Rows of a molecule in the loop output are exactly that molecule's
cluster-center rows, provided the configured names are distinct. -/
theorem filter_outRowsLoop (lines : List LineRec) (wave : List ℚ) :
    ∀ (mols : List (String × ℤ)), (mols.map Prod.fst).Nodup →
      ∀ nm mid, (nm, mid) ∈ mols →
        (outRowsLoop lines wave mols).filter (fun p => p.1 = nm)
          = outRowsFor lines wave nm mid
  | [], _, nm, mid, hmem => absurd hmem (List.not_mem_nil _)
  | m0 :: rest, hnd, nm, mid, hmem => by
    have hnd' : (rest.map Prod.fst).Nodup := (List.nodup_cons.mp (by simpa using hnd)).2
    have hm0 : m0.1 ∉ rest.map Prod.fst := (List.nodup_cons.mp (by simpa using hnd)).1
    unfold outRowsLoop
    rw [List.flatMap_cons, List.filter_append]
    rcases List.mem_cons.mp hmem with heq | hmem'
    · have hnm : m0.1 = nm := by rw [← heq]
      have hmid : m0.2 = mid := by rw [← heq]
      have hself : (outRowsFor lines wave m0.1 m0.2).filter (fun p => p.1 = nm)
          = outRowsFor lines wave m0.1 m0.2 := by
        refine List.filter_eq_self.mpr (fun p hp => ?_)
        have h1 := outRowsFor_fst lines wave m0.1 m0.2 p hp
        simp [h1, hnm]
      have hrest : (rest.flatMap (fun m => outRowsFor lines wave m.1 m.2)).filter
          (fun p => p.1 = nm) = [] := by
        refine List.filter_eq_nil_iff.mpr (fun p hp => ?_)
        have hfst := mem_outRowsLoop_fst lines wave rest p hp
        simp only [decide_eq_true_eq]
        intro hpe
        rw [hpe, ← hnm] at hfst
        exact hm0 hfst
      rw [hself, hrest, List.append_nil, hnm, hmid]
    · have hne : nm ≠ m0.1 := by
        intro he
        exact hm0 (he ▸ List.mem_map.mpr ⟨(nm, mid), hmem', rfl⟩)
      have hself : (outRowsFor lines wave m0.1 m0.2).filter (fun p => p.1 = nm) = [] := by
        refine List.filter_eq_nil_iff.mpr (fun p hp => ?_)
        have h1 := outRowsFor_fst lines wave m0.1 m0.2 p hp
        simp only [decide_eq_true_eq]
        intro hpe
        exact hne (hpe.symm.trans h1)
      have hrest := filter_outRowsLoop lines wave rest hnd' nm mid hmem'
      unfold outRowsLoop at hrest
      rw [hself, hrest, List.nil_append]

end ExoMaft

namespace ExoMaft

/-- Claim **C4** (code bug): the feature-tracking script reads the module-level
name `lines` at line 140 (`dfm = lines[lines['molec_id'] == mol_id]`), but
the module never assigns that name — `load_linelist_par` is defined at line
79 and never called — so every run aborts with `NameError` on the first loop
iteration and the feature list output is never produced, contradicting the
module's own docstring ("save: output/feature_lines.txt").  Had `lines` been
bound to the loader's output as intended, the loop would emit exactly the
claimed rows: restricting the output to any configured molecule (the six
configured names are distinct) yields exactly that molecule's cluster
centers, one `(molecule, wavelength)` row per emitted center. -/
theorem feature_tracking_nameError (wave : List ℚ) (parRows : List RawRow)
    (lines : List LineRec) (nm : String) (mid : ℤ)
    (hmem : (nm, mid) ∈ MOLECULES)
    (hne : (lines.filter (fun r => r.molec_id = mid)).isEmpty = false) :
    featureTrackingOutRows wave parRows = Except.error PdError.nameError ∧
    ((outRowsLoop lines wave MOLECULES).filter (fun p => p.1 = nm)).map Prod.snd
      = clusterCenters ((nlargestBy LineRec.sw TOP_N
          (lines.filter (fun r => r.molec_id = mid))).map LineRec.wavelength_um)
        wave BIN_WIDTH := by
  constructor
  · rfl
  · have hnodup : (MOLECULES.map Prod.fst).Nodup := by decide
    rw [filter_outRowsLoop lines wave MOLECULES hnodup nm mid hmem]
    unfold outRowsFor
    rw [if_neg (by simp [hne]), List.map_map]
    simp

theorem feature_tracking_nameError_witness :
    (("H2O", (1 : ℤ)) ∈ MOLECULES) ∧
    (([(⟨1, 1, 5000, 1, none, none, none, none, none, none, 2⟩ : LineRec)].filter
        (fun r => r.molec_id = 1)).isEmpty = false) ∧
    featureTrackingOutRows [1, 3] [] = Except.error PdError.nameError :=
  ⟨by decide, by decide,
    (feature_tracking_nameError [1, 3] []
      [⟨1, 1, 5000, 1, none, none, none, none, none, none, 2⟩] "H2O" 1
      (by decide) (by decide)).1⟩

/-- Claim **C8 counterexample.** Take spectrum wavelengths `{1, 1.02}` and
`bin_width = 0.02`.  Then `ceil((max − min)/bin_width) = ceil(1) = 1`, but
the two selected lines at `1` and `1.02` receive digitize indices 1 and 2
(`np.arange(1, 1.04, 0.02) = [1, 1.02]`, and a value at or beyond the last
edge gets the overflow index `len(bins)`), so two clusters are emitted:
the claimed bound `#clusters ≤ #occupied bins ≤ ceil((max − min)/bin_width)`
fails at this input. -/
theorem clustering_bound_counterexample :
    (clusterCenters [(1 : ℚ), 51/50] [1, 51/50] (1/50)).length = 2 ∧
    (Int.ceil ((npMax [(1 : ℚ), 51/50] - npMin [(1 : ℚ), 51/50]) / (1/50))).toNat = 1 := by
  constructor
  · norm_num [clusterCenters, npArange, npMin, npMax, digitize, npUnique, npMean,
      List.countP, List.countP.go]
  · norm_num [npMin, npMax]

/-- Claim **C8 amended.** For every molecule with at least one selected line, the
clustering assigns each selected wavelength a digitize index over the edges
`np.arange(min, max + bin_width, bin_width)` and emits one cluster per
occupied index, whose center is the arithmetic mean of that index's (then
nonempty) member wavelengths; the number of emitted clusters is at most
`ceil((max_wavelength − min_wavelength)/bin_width) + 2` — the two extra
classes beyond the claimed bound are the underflow class (wavelengths below
the range minimum) and the overflow class (wavelengths at or beyond the last
edge, which contains the range maximum itself whenever `bin_width` divides
the range exactly), and lines outside `[min, max]` land in them as well. -/
theorem clustering_clusters_bound (strongest wave : List ℚ) (w : ℚ)
    (_hs : strongest ≠ []) (_hwave : wave ≠ []) (hw : 0 < w) :
    (∀ c ∈ clusterCenters strongest wave w, ∃ b : ℕ,
      (strongest.filter
        (fun x => digitize x (npArange (npMin wave) (npMax wave + w) w) = b)) ≠ [] ∧
      c = npMean (strongest.filter
        (fun x => digitize x (npArange (npMin wave) (npMax wave + w) w) = b))) ∧
    (clusterCenters strongest wave w).length ≤
      (Int.ceil ((npMax wave - npMin wave) / w)).toNat + 2 :=
  ⟨fun c hc => clusterCenters_mean strongest wave w c hc,
   clusterCenters_length_le strongest wave w (ne_of_gt hw)⟩

theorem clustering_clusters_bound_witness :
    ([(1 : ℚ)] ≠ []) ∧ ([(1 : ℚ), 2] ≠ []) ∧ (0 < (1 : ℚ)/50) ∧
    (clusterCenters [(1 : ℚ)] [1, 2] (1/50)).length ≤
      (Int.ceil ((npMax [(1 : ℚ), 2] - npMin [(1 : ℚ), 2]) / (1/50))).toNat + 2 :=
  ⟨by decide, by decide, by norm_num,
    (clustering_clusters_bound [(1 : ℚ)] [1, 2] (1/50)
      (by decide) (by decide) (by norm_num)).2⟩

/-- Claim **C3 counterexample.** On the two-row catalog [valid row; row whose
isotope-id field is `"A3"`], the feature-tracking loader silently drops the
malformed row and returns exactly the valid row's record — but
`CrossCorrelator.load_linelist_par` (equally cited by the claim) hits
`ValueError` in `astype(int)` and aborts the whole load, returning no rows
at all.  So "the line-catalog loader … drops failing rows silently without
raising" is false of the cross-correlation loader. -/
theorem linelist_cc_loader_aborts :
    load_linelist_par
        [⟨" 1", "1", " 2000", " 5", "", "", "", "", "", ""⟩,
         ⟨" 1", "A3", " 2500", " 5", "", "", "", "", "", ""⟩]
      = [⟨1, 1, 2000, 5, none, none, none, none, none, none, 10000 / 2000⟩] ∧
    load_linelist_par_cc
        [⟨" 1", "1", " 2000", " 5", "", "", "", "", "", ""⟩,
         ⟨" 1", "A3", " 2500", " 5", "", "", "", "", "", ""⟩]
      = Except.error PdError.valueError :=
  ⟨rfl, rfl⟩

/-- Claim **C3 amended.** The tolerant two-stage policy holds for the
feature-tracking loader `load_linelist_par` (while the CrossCorrelator's
loader aborts on malformed rows, see the counterexample): (i) a row failing
the all-digit id check can be removed anywhere from the catalog without
changing the output, so malformed rows are dropped silently and the
remaining valid rows are still returned; (ii) every returned record stems
from a row that passed the digit check and whose `nu` and `sw` coerced to
numbers; (iii) conversely every such row contributes its record. -/
theorem linelist_loader_tolerant (rows1 rows2 : List RawRow) (bad : RawRow)
    (hbad : acceptIds bad = false) :
    (load_linelist_par (rows1 ++ bad :: rows2) = load_linelist_par (rows1 ++ rows2)) ∧
    (∀ rec ∈ load_linelist_par (rows1 ++ rows2), ∃ raw ∈ rows1 ++ rows2,
       acceptIds raw = true ∧ mkLineRec raw = some rec) ∧
    (∀ raw ∈ rows1 ++ rows2, acceptIds raw = true →
       ∀ rec, mkLineRec raw = some rec → rec ∈ load_linelist_par (rows1 ++ rows2)) := by
  refine ⟨?_, ?_, ?_⟩
  · unfold load_linelist_par
    rw [List.filter_append, List.filter_append,
      List.filter_cons_of_neg (by simp [hbad])]
  · intro rec hrec
    rcases List.mem_filterMap.mp hrec with ⟨raw, hraw, hmk⟩
    rcases List.mem_filter.mp hraw with ⟨hmem, hacc⟩
    exact ⟨raw, hmem, hacc, hmk⟩
  · intro raw hmem hacc rec hmk
    exact List.mem_filterMap.mpr ⟨raw, List.mem_filter.mpr ⟨hmem, hacc⟩, hmk⟩

theorem linelist_loader_tolerant_witness :
    (acceptIds ⟨" 1", "A3", " 2500", " 5", "", "", "", "", "", ""⟩ = false) ∧
    load_linelist_par
        ([⟨" 1", "1", " 2000", " 5", "", "", "", "", "", ""⟩] ++
          (⟨" 1", "A3", " 2500", " 5", "", "", "", "", "", ""⟩ : RawRow) :: [])
      = load_linelist_par ([⟨" 1", "1", " 2000", " 5", "", "", "", "", "", ""⟩] ++ []) :=
  ⟨rfl,
    (linelist_loader_tolerant [⟨" 1", "1", " 2000", " 5", "", "", "", "", "", ""⟩] []
      ⟨" 1", "A3", " 2500", " 5", "", "", "", "", "", ""⟩ rfl).1⟩

end ExoMaft

namespace ExoMaft

/-! ### The cross-correlation engine (`maft_cross_correlation.py`), over ℝ -/

noncomputable section CrossCorrelationEngine

open Classical in
/-- Model of `CrossCorrelator.zscore`'s standard deviation, `np.std(arr)` (population,
`ddof = 0`): `sqrt(mean(|x - mean(x)|**2))`. -/
def npStd (l : List ℝ) : ℝ :=
  Real.sqrt (npMean (l.map (fun v => (v - npMean l)^2)))

open Classical in
/-- Model of `CrossCorrelator.zscore` (lines 135–151):
`std = np.std(arr); return (arr - np.mean(arr)) / (std if std > 0 else 1.0)`. -/
def zscore (l : List ℝ) : List ℝ :=
  l.map (fun v => (v - npMean l) / (if 0 < npStd l then npStd l else 1))

open Classical in
/-- Model of `np.argmin(np.abs(wave - lam))`: the first index of minimal distance. -/
def argminAbs (wave : List ℝ) (lam : ℝ) : ℕ :=
  (List.range wave.length).foldl
    (fun best i => if |wave.getD i 0 - lam| < |wave.getD best 0 - lam| then i else best) 0

/-- Lines 176–179: `tpl = np.zeros_like(depth)`, then for each cluster
center `lam`, `tpl[np.argmin(np.abs(wave - lam))] = 1.0` — a sparse
indicator; two centers with the same nearest sample write the same slot. -/
def buildTemplate (wave : List ℝ) (centers : List ℝ) : List ℝ :=
  centers.foldl (fun tpl lam => tpl.set (argminAbs wave lam) 1)
    (List.replicate wave.length 0)

open Classical in
/-- Zero-padded indexing for the correlation sum. -/
def getZ (l : List ℝ) (i : ℤ) : ℝ :=
  if 0 ≤ i ∧ i < l.length then l.getD i.toNat 0 else 0

/-- Model of `scipy.signal.correlate(a, v, mode='same')` for equal-length inputs: the
centered `len(a)` lags of the full correlation
`c_full[t] = sum_j a[j] * v[j - t + len(v) - 1]`. -/
def correlateSame (a v : List ℝ) : List ℝ :=
  (List.range a.length).map (fun (k : ℕ) =>
    ((List.range a.length).map (fun (j : ℕ) =>
      a.getD j 0 * getZ v ((j : ℤ) - ((k : ℤ) + ((v.length : ℤ) - 1) / 2)
        + (v.length : ℤ) - 1))).sum)

/-- The numpy failure on empty-array reductions: `ValueError: zero-size
array to reduction operation`.  (No `InsufficientDataError` — or any other
custom exception — exists anywhere in the code.) -/
inductive CCError where
  | emptyReduction
deriving DecidableEq

/-- Model of `np.ndarray.min()` with numpy's failure on an empty array. -/
def npMinE (l : List ℝ) : Except CCError ℝ :=
  if l.isEmpty then Except.error CCError.emptyReduction else Except.ok (npMin l)

/-- Model of `np.ndarray.max()` / `np.max` with numpy's failure on an empty array. -/
def npMaxE (l : List ℝ) : Except CCError ℝ :=
  if l.isEmpty then Except.error CCError.emptyReduction else Except.ok (npMax l)

/-- One iteration of `CrossCorrelator.run_cross_correlation` (lines 164–188)
for a molecule whose selected-line list is `strongest` (the loop only
reaches this point when `dfm` is nonempty): compute the bins from
`wave.min()` and `wave.max()` (the numpy reductions that fail on an empty
spectrum), cluster, place the template spikes, z-score both vectors,
correlate in 'same' mode and take `np.max(ccf)` as the molecule's peak. -/
def ccfScore (spec : List (ℝ × ℝ)) (strongest : List ℝ) (w : ℝ) :
    Except CCError ℝ := do
  let wave := spec.map Prod.fst
  let depth := spec.map Prod.snd
  let _wmin ← npMinE wave
  let _wmax ← npMaxE wave
  let centers := clusterCenters strongest wave w
  let tpl := buildTemplate wave centers
  npMaxE (correlateSame (zscore depth) (zscore tpl))

end CrossCorrelationEngine

end ExoMaft

namespace ExoMaft

/-- Claim **C9 counterexample.** On the single-point spectrum `[(1, 2)]` the
scoring computation completes and returns a peak value — no error of any
kind is raised — contradicting "fails with InsufficientDataError whenever
the combined spectrum … contains exactly one point".  (No
`InsufficientDataError` exists anywhere in the code to begin with.) -/
theorem ccfScore_singleton_ok :
    ∃ v : ℝ, ccfScore [((1 : ℝ), 2)] [3] (1/50) = Except.ok v := ⟨_, rfl⟩

/-- Claim **C9 amended.** The scoring operation fails only on an *empty* spectrum,
and the failure is numpy's empty-reduction `ValueError` from `wave.min()`,
not an `InsufficientDataError` (no such exception exists in the code); a
single-point spectrum is scored without error. -/
theorem ccfScore_error_iff (spec : List (ℝ × ℝ)) (strongest : List ℝ) (w : ℝ) :
    (ccfScore spec strongest w = Except.error CCError.emptyReduction ↔ spec = []) := by
  constructor
  · intro herr
    by_contra hne
    have hwave : (spec.map Prod.fst).isEmpty = false := by
      rw [List.isEmpty_eq_false]
      simpa using hne
    have hmin : npMinE (spec.map Prod.fst) = Except.ok (npMin (spec.map Prod.fst)) := by
      rw [npMinE, hwave]
      rfl
    have hmax : npMaxE (spec.map Prod.fst) = Except.ok (npMax (spec.map Prod.fst)) := by
      rw [npMaxE, hwave]
      rfl
    have hccf : (correlateSame (zscore (spec.map Prod.snd))
        (zscore (buildTemplate (spec.map Prod.fst)
          (clusterCenters strongest (spec.map Prod.fst) w)))).isEmpty = false := by
      rw [List.isEmpty_eq_false]
      intro hnil
      have hlen := congrArg List.length hnil
      simp [correlateSame, zscore] at hlen
      exact hne (List.eq_nil_of_length_eq_zero (by simpa using hlen))
    have : ccfScore spec strongest w
        = npMaxE (correlateSame (zscore (spec.map Prod.snd))
          (zscore (buildTemplate (spec.map Prod.fst)
            (clusterCenters strongest (spec.map Prod.fst) w)))) := by
      rw [ccfScore, hmin, hmax]
      rfl
    rw [this, npMaxE, hccf] at herr
    exact absurd herr (by simp)
  · rintro rfl
    rfl

theorem ccfScore_error_iff_witness :
    ccfScore ([] : List (ℝ × ℝ)) [] 1 = Except.error CCError.emptyReduction :=
  (ccfScore_error_iff [] [] 1).mpr rfl

end ExoMaft

namespace ExoMaft

noncomputable section TemplateLemmas

theorem foldl_min_lt (n : ℕ) (p : ℕ → ℕ → Prop) [inst : ∀ b i, Decidable (p b i)] :
    ∀ (l : List ℕ) (b : ℕ), b < n → (∀ i ∈ l, i < n) →
      l.foldl (fun best i => if p best i then i else best) b < n
  | [], _, hb, _ => hb
  | i :: rest, b, hb, hl => by
    rw [List.foldl_cons]
    refine foldl_min_lt n p rest _ ?_ (fun j hj => hl j (List.mem_cons_of_mem _ hj))
    by_cases hpi : p b i
    · rw [if_pos hpi]; exact hl i (List.mem_cons_self _ _)
    · rw [if_neg hpi]; exact hb

theorem argminAbs_lt (wave : List ℝ) (lam : ℝ) (h : wave ≠ []) :
    argminAbs wave lam < wave.length := by
  unfold argminAbs
  exact foldl_min_lt wave.length
    (fun best i => |wave.getD i 0 - lam| < |wave.getD best 0 - lam|)
    (List.range wave.length) 0 (List.length_pos.mpr h)
    (fun i hi => List.mem_range.mp hi)

theorem one_mem_set_of_lt : ∀ (l : List ℝ) (i : ℕ), i < l.length → (1 : ℝ) ∈ l.set i 1
  | _ :: _, 0, _ => List.mem_cons_self _ _
  | _ :: xs, i+1, h => List.mem_cons_of_mem _ (one_mem_set_of_lt xs i (by simpa using h))
  | [], _, h => absurd h (by simp)

theorem entries01_set (l : List ℝ) (i : ℕ) (hl : ∀ v ∈ l, v = 0 ∨ v = 1) :
    ∀ v ∈ l.set i 1, v = 0 ∨ v = 1 := by
  intro v hv
  rcases List.mem_or_eq_of_mem_set hv with h | rfl
  · exact hl v h
  · exact Or.inr rfl

open Classical in
/-- The number of template entries equal to `1.0`. -/
def onesCount (l : List ℝ) : ℕ := l.countP (fun v => v = 1)

open Classical in
theorem onesCount_set_le : ∀ (l : List ℝ) (i : ℕ),
    onesCount (l.set i 1) ≤ onesCount l + 1
  | [], _ => by simp [onesCount]
  | x :: xs, 0 => by
    unfold onesCount
    rw [List.set_cons_zero, List.countP_cons, List.countP_cons,
      if_pos (show (decide ((1 : ℝ) = 1)) = true by simp)]
    omega
  | x :: xs, i+1 => by
    unfold onesCount
    rw [List.set_cons_succ, List.countP_cons, List.countP_cons]
    have h := onesCount_set_le xs i
    unfold onesCount at h
    omega

open Classical in
theorem onesCount_pos_of_mem (l : List ℝ) (h : (1 : ℝ) ∈ l) : 1 ≤ onesCount l :=
  Nat.one_le_iff_ne_zero.mpr (fun h0 => by
    have := List.countP_eq_zero.mp h0 1 h
    simp at this)

theorem buildTemplate_fold_inv (wave : List ℝ) (hn : wave ≠ []) :
    ∀ (centers : List ℝ) (tpl : List ℝ),
      tpl.length = wave.length → (∀ v ∈ tpl, v = 0 ∨ v = 1) →
      (centers.foldl (fun t lam => t.set (argminAbs wave lam) 1) tpl).length = wave.length ∧
      (∀ v ∈ centers.foldl (fun t lam => t.set (argminAbs wave lam) 1) tpl, v = 0 ∨ v = 1) ∧
      onesCount (centers.foldl (fun t lam => t.set (argminAbs wave lam) 1) tpl)
        ≤ onesCount tpl + centers.length ∧
      (centers ≠ [] → (1 : ℝ) ∈ centers.foldl (fun t lam => t.set (argminAbs wave lam) 1) tpl) ∧
      ((1 : ℝ) ∈ tpl → (1 : ℝ) ∈ centers.foldl (fun t lam => t.set (argminAbs wave lam) 1) tpl)
  | [], tpl, hlen, h01 => ⟨hlen, h01, by simp, fun h => absurd rfl h, fun h => h⟩
  | c :: cs, tpl, hlen, h01 => by
    rw [List.foldl_cons]
    have hlt : argminAbs wave c < tpl.length := by
      rw [hlen]; exact argminAbs_lt wave c hn
    have hlen' : (tpl.set (argminAbs wave c) 1).length = wave.length := by
      rw [List.length_set]; exact hlen
    have h01' := entries01_set tpl (argminAbs wave c) h01
    obtain ⟨ih1, ih2, ih3, _, ih5⟩ :=
      buildTemplate_fold_inv wave hn cs (tpl.set (argminAbs wave c) 1) hlen' h01'
    have hone : (1 : ℝ) ∈ tpl.set (argminAbs wave c) 1 := one_mem_set_of_lt tpl _ hlt
    refine ⟨ih1, ih2, ?_, fun _ => ih5 hone, fun _ => ih5 hone⟩
    have hset := onesCount_set_le tpl (argminAbs wave c)
    have hcs : (c :: cs).length = cs.length + 1 := by simp
    rw [hcs]
    omega

/-- Claim **C10.** For a combined spectrum with at least one point and a nonempty
list of cluster centers, the template vector has the same length as the
spectrum, every entry is `0.0` or `1.0`, and the number of `1.0` entries is
at least 1 and at most the number of centers — distinct centers whose
nearest spectrum sample coincides write the same slot and collapse into a
single spike instead of accumulating. -/
theorem template_vector_invariants (wave centers : List ℝ)
    (hn : wave ≠ []) (hc : centers ≠ []) :
    (buildTemplate wave centers).length = wave.length ∧
    (∀ v ∈ buildTemplate wave centers, v = 0 ∨ v = 1) ∧
    1 ≤ onesCount (buildTemplate wave centers) ∧
    onesCount (buildTemplate wave centers) ≤ centers.length := by
  obtain ⟨h1, h2, h3, h4, -⟩ := buildTemplate_fold_inv wave hn centers
    (List.replicate wave.length 0) (by simp)
    (fun v hv => Or.inl (List.eq_of_mem_replicate hv))
  have hz : onesCount (List.replicate wave.length 0) = 0 := by
    refine List.countP_eq_zero.mpr (fun v hv => ?_)
    have := List.eq_of_mem_replicate hv
    simp [this]
  unfold buildTemplate
  refine ⟨h1, h2, onesCount_pos_of_mem _ (h4 hc), ?_⟩
  rw [hz] at h3
  simpa using h3

theorem template_vector_invariants_witness :
    (([(1 : ℝ)] : List ℝ) ≠ []) ∧ (([(2 : ℝ)] : List ℝ) ≠ []) ∧
    (buildTemplate [(1 : ℝ)] [(2 : ℝ)]).length = 1 ∧
    1 ≤ onesCount (buildTemplate [(1 : ℝ)] [(2 : ℝ)]) :=
  ⟨by simp, by simp,
    by simpa using (template_vector_invariants [(1 : ℝ)] [(2 : ℝ)] (by simp) (by simp)).1,
    (template_vector_invariants [(1 : ℝ)] [(2 : ℝ)] (by simp) (by simp)).2.2.1⟩

end TemplateLemmas

end ExoMaft

namespace ExoMaft

noncomputable section ZscoreLemmas

theorem npStd_nil : npStd [] = 0 := by simp [npStd, npMean]

theorem sum_map_affine (a b : ℝ) (l : List ℝ) :
    (l.map (fun v => a * v + b)).sum = a * l.sum + l.length * b := by
  induction l with
  | nil => simp
  | cons x xs ih =>
    rw [List.map_cons, List.sum_cons, List.sum_cons, ih, List.length_cons]
    push_cast
    ring

theorem npMean_map_affine (a b : ℝ) (l : List ℝ) (hl : l ≠ []) :
    npMean (l.map (fun v => a * v + b)) = a * npMean l + b := by
  have hn : (l.length : ℝ) ≠ 0 :=
    Nat.cast_ne_zero.mpr (Nat.pos_iff_ne_zero.mp (List.length_pos.mpr hl))
  unfold npMean
  rw [List.length_map, sum_map_affine]
  field_simp
  ring

theorem npVar_nonneg (l : List ℝ) :
    0 ≤ npMean (l.map (fun v => (v - npMean l)^2)) := by
  unfold npMean
  apply div_nonneg
  · apply List.sum_nonneg
    intro x hx
    rcases List.mem_map.mp hx with ⟨v, -, rfl⟩
    exact sq_nonneg _
  · exact_mod_cast Nat.zero_le _

theorem ne_nil_of_npStd_pos (l : List ℝ) (h : 0 < npStd l) : l ≠ [] := by
  rintro rfl
  rw [npStd_nil] at h
  exact lt_irrefl _ h

theorem zscore_eq_of_pos (l : List ℝ) (h : 0 < npStd l) :
    zscore l = l.map (fun v => (v - npMean l) / npStd l) := by
  simp only [zscore, if_pos h]

theorem zscore_mean_zero (l : List ℝ) (h : 0 < npStd l) : npMean (zscore l) = 0 := by
  have hl := ne_nil_of_npStd_pos l h
  have hσ : npStd l ≠ 0 := ne_of_gt h
  rw [zscore_eq_of_pos l h]
  have hf : (fun v => (v - npMean l) / npStd l)
      = fun v => (1 / npStd l) * v + (-(npMean l / npStd l)) := by
    funext v
    field_simp
    ring
  rw [hf, npMean_map_affine _ _ _ hl]
  field_simp

theorem zscore_std_one (l : List ℝ) (h : 0 < npStd l) : npStd (zscore l) = 1 := by
  have hl := ne_nil_of_npStd_pos l h
  have hσ : npStd l ≠ 0 := ne_of_gt h
  have hvar : 0 < npMean (l.map (fun v => (v - npMean l)^2)) := by
    have := h
    unfold npStd at this
    exact Real.sqrt_pos.mp this
  have hμ0 : npMean (zscore l) = 0 := zscore_mean_zero l h
  have hσsq : (npStd l)^2 = npMean (l.map (fun v => (v - npMean l)^2)) := by
    unfold npStd
    exact Real.sq_sqrt (npVar_nonneg l)
  unfold npStd
  rw [hμ0, zscore_eq_of_pos l h, List.map_map]
  have hf : ((fun v => (v - 0)^2) ∘ (fun v => (v - npMean l) / npStd l))
      = fun v => ((v - npMean l)^2) * (1 / (npStd l)^2) := by
    funext v
    field_simp
  rw [hf]
  have hsplit : l.map (fun v => ((v - npMean l)^2) * (1 / (npStd l)^2))
      = (l.map (fun v => (v - npMean l)^2)).map
          (fun y => (1 / (npStd l)^2) * y + 0) := by
    rw [List.map_map]
    apply List.map_congr_left
    intro v _
    simp only [Function.comp]
    ring
  rw [hsplit, npMean_map_affine _ _ _ (by simpa using hl), hσsq]
  rw [one_div, inv_mul_cancel₀ (ne_of_gt hvar), add_zero, Real.sqrt_one]

theorem sum_eq_length_mul (x : ℝ) : ∀ (l : List ℝ),
    (∀ y ∈ l, y = x) → l.sum = l.length * x
  | [], _ => by simp
  | y :: ys, h => by
    rw [List.sum_cons, h y (List.mem_cons_self _ _),
      sum_eq_length_mul x ys (fun z hz => h z (List.mem_cons_of_mem _ hz)),
      List.length_cons]
    push_cast
    ring

theorem zscore_const (l : List ℝ) (h : ∀ x ∈ l, ∀ y ∈ l, x = y) :
    npStd l = 0 ∧ zscore l = l.map (fun _ => (0 : ℝ)) := by
  rcases l with _ | ⟨x, xs⟩
  · exact ⟨npStd_nil, by simp [zscore]⟩
  · have hall : ∀ y ∈ x :: xs, y = x :=
      fun y hy => h y hy x (List.mem_cons_self _ _)
    have hn : ((x :: xs).length : ℝ) ≠ 0 := Nat.cast_ne_zero.mpr (by simp)
    have hμ : npMean (x :: xs) = x := by
      unfold npMean
      rw [sum_eq_length_mul x _ hall]
      field_simp
    have hsub : ∀ y ∈ x :: xs, y - npMean (x :: xs) = 0 := by
      intro y hy
      rw [hμ, hall y hy, sub_self]
    have hmap0 : (x :: xs).map (fun v => (v - npMean (x :: xs))^2)
        = (x :: xs).map (fun _ => (0 : ℝ)) := by
      apply List.map_congr_left
      intro y hy
      rw [hsub y hy]
      ring
    constructor
    · unfold npStd
      rw [hmap0]
      have : npMean ((x :: xs).map (fun _ => (0 : ℝ))) = 0 := by
        unfold npMean
        simp
      rw [this, Real.sqrt_zero]
    · unfold zscore
      apply List.map_congr_left
      intro y hy
      rw [hsub y hy, zero_div]

/-- Claim **C7.**  `CrossCorrelator.zscore`: for an input of positive standard
deviation, the output is exactly `(x − mean(x)) / std(x)` and has mean `0`
and standard deviation `1`; a constant input vector has standard deviation
`0`, in which case the divisor is the fallback `1.0` and the output is the
zero vector; the divisor is never zero. -/
theorem zscore_spec (l : List ℝ) :
    (0 < npStd l →
      zscore l = l.map (fun v => (v - npMean l) / npStd l) ∧
      npMean (zscore l) = 0 ∧ npStd (zscore l) = 1) ∧
    ((∀ x ∈ l, ∀ y ∈ l, x = y) →
      npStd l = 0 ∧ zscore l = l.map (fun _ => (0 : ℝ))) ∧
    (¬ 0 < npStd l → zscore l = l.map (fun v => (v - npMean l) / 1)) ∧
    (if 0 < npStd l then npStd l else 1) ≠ 0 := by
  refine ⟨fun h => ⟨zscore_eq_of_pos l h, zscore_mean_zero l h, zscore_std_one l h⟩,
    fun h => zscore_const l h, fun h => by simp only [zscore, if_neg h], ?_⟩
  split
  · exact ne_of_gt (by assumption)
  · exact one_ne_zero

theorem zscore_spec_witness :
    (0 < npStd [(0 : ℝ), 2]) ∧
    npMean (zscore [(0 : ℝ), 2]) = 0 ∧ npStd (zscore [(0 : ℝ), 2]) = 1 := by
  have hμ : npMean [(0 : ℝ), 2] = 1 := by
    unfold npMean
    norm_num
  have hmap : [(0 : ℝ), 2].map (fun v => (v - npMean [(0 : ℝ), 2])^2) = [1, 1] := by
    rw [hμ]
    norm_num
  have hstd : npStd [(0 : ℝ), 2] = 1 := by
    unfold npStd
    rw [hmap]
    have : npMean [(1 : ℝ), 1] = 1 := by
      unfold npMean
      norm_num
    rw [this, Real.sqrt_one]
  have hpos : 0 < npStd [(0 : ℝ), 2] := by
    rw [hstd]
    exact one_pos
  exact ⟨hpos, ((zscore_spec [(0 : ℝ), 2]).1 hpos).2⟩

end ZscoreLemmas

end ExoMaft
